import Mathlib

/-!
Shallow embedding of `src/src/lib.rs` (a Bitcoin-style transaction codec)
and proofs about it.

Modelling conventions:
* Rust `u8`/`u16`/`u32`/`u64`/`usize` values are `Nat`s; where a claim needs
  the machine bound it appears as an explicit hypothesis (`v < 2 ^ 64`,
  bytes `< 256`, Rust `Vec`/slice lengths are at most `isize::MAX < 2 ^ 63`).
  The target is 64-bit: `usize` has the width of `u64`, so `as u64` /
  `as usize` casts between them are value-preserving.
* Byte buffers (`&[u8]`, `Vec<u8>`) are `List Nat`.
* Rust `Result<T, BitcoinError>` becomes `RResult T`, with a third
  constructor `panicked` recording a Rust panic (arithmetic overflow or an
  out-of-range slice index), so that "the decoder never panics" is a
  statement the embedding can settle.
-/

/-- Little-endian read of a byte list, as in `uN::from_le_bytes`. -/
def fromLE : List Nat → Nat
  | [] => 0
  | b :: bs => b + 256 * fromLE bs

/-- Little-endian bytes of `v` at width `w`, as in `uN::to_le_bytes`
(for `v` within the width, which every use site guarantees). -/
def toLE : Nat → Nat → List Nat
  | 0, _ => []
  | w + 1, v => v % 256 :: toLE w (v / 256)

/-- Error type, from `enum BitcoinError` in src/src/lib.rs. -/
inductive BitcoinError where
  | InsufficientBytes
  | InvalidFormat
deriving DecidableEq, Repr

/-- Outcome of a Rust `fn ... -> Result<T, BitcoinError>` call: success,
error, or a panic (`panicked` marks control flow that aborts, e.g. overflow
in debug builds or a slice `[a..b]` with `a > b`). -/
inductive RResult (α : Type) where
  | ok (val : α)
  | err (e : BitcoinError)
  | panicked
deriving DecidableEq, Repr

/-- Model of `struct CompactSize { value: u64 }`. -/
structure CompactSize where
  value : Nat
deriving DecidableEq, Repr

/-- Model of `CompactSize::new`. -/
def CompactSize.new (value : Nat) : CompactSize := ⟨value⟩

/-- The `u64` invariant of the `value` field. -/
def CompactSize.Valid (c : CompactSize) : Prop := c.value < 2 ^ 64

/-- Model of `CompactSize::to_bytes` (src/src/lib.rs lines 21-40): tag by magnitude,
payload little-endian. The Rust casts `as u8`/`as u16`/`as u32` are
value-preserving inside their match arms. -/
def CompactSize.to_bytes (c : CompactSize) : List Nat :=
  if c.value ≤ 0xFC then [c.value]
  else if c.value ≤ 0xFFFF then 0xFD :: toLE 2 c.value
  else if c.value ≤ 0xFFFFFFFF then 0xFE :: toLE 4 c.value
  else 0xFF :: toLE 8 c.value

/-- Model of `CompactSize::from_bytes` (src/src/lib.rs lines 42-72). The Rust length
guard `bytes.len() < 3` is `(tag :: rest).length < 3` here, and the slice
`bytes[1..3]` is `rest.take 2`; likewise for the 0xFE/0xFF arms. -/
def CompactSize.from_bytes (bytes : List Nat) : RResult (CompactSize × Nat) :=
  match bytes with
  | [] => .err .InsufficientBytes
  | tag :: rest =>
    if tag ≤ 0xFC then .ok (CompactSize.new tag, 1)
    else if tag = 0xFD then
      if (tag :: rest).length < 3 then .err .InsufficientBytes
      else .ok (CompactSize.new (fromLE (rest.take 2)), 3)
    else if tag = 0xFE then
      if (tag :: rest).length < 5 then .err .InsufficientBytes
      else .ok (CompactSize.new (fromLE (rest.take 4)), 5)
    else
      if (tag :: rest).length < 9 then .err .InsufficientBytes
      else .ok (CompactSize.new (fromLE (rest.take 8)), 9)

theorem toLE_length (w v : Nat) : (toLE w v).length = w := by
  induction w generalizing v with
  | zero => rfl
  | succ w ih => simp [toLE, ih]

theorem fromLE_toLE (w v : Nat) (h : v < 256 ^ w) : fromLE (toLE w v) = v := by
  induction w generalizing v with
  | zero => simp [pow_zero] at h; simp [toLE, fromLE, h]
  | succ w ih =>
    have hdiv : v / 256 < 256 ^ w := by
      rw [Nat.div_lt_iff_lt_mul (by norm_num)]
      calc v < 256 ^ (w + 1) := h
        _ = 256 ^ w * 256 := by ring
    simp [toLE, fromLE, ih _ hdiv, Nat.mod_add_div]

theorem toLE_lt (w v : Nat) : ∀ b ∈ toLE w v, b < 256 := by
  induction w generalizing v with
  | zero => simp [toLE]
  | succ w ih =>
    intro b hb
    simp only [toLE, List.mem_cons] at hb
    rcases hb with h | h
    · subst h; omega
    · exact ih (v / 256) b h

/-- Model of `struct Txid(pub [u8; 32])`; modelled as a byte list with the length in
the validity predicate. -/
structure Txid where
  bytes : List Nat
deriving DecidableEq, Repr

/-- The `[u8; 32]` invariant of a `Txid`. -/
def Txid.Valid (t : Txid) : Prop :=
  t.bytes.length = 32 ∧ ∀ b ∈ t.bytes, b < 256

/-- Lowercase hex digit for a nibble, as produced by `hex::encode`. -/
def hexDigitOfNat (n : Nat) : Char :=
  if n < 10 then Char.ofNat (48 + n) else Char.ofNat (87 + n)

/-- Model of `hex::encode`: each byte becomes two lowercase hex digits, high nibble
first. Modelled from the documented behavior of the `hex` crate dependency. -/
def hexEncode : List Nat → List Char
  | [] => []
  | b :: bs => hexDigitOfNat (b / 16) :: hexDigitOfNat (b % 16) :: hexEncode bs

/-- Value of one hex digit (`hex` crate accepts both cases), or `none`. -/
def hexDigitVal (c : Char) : Option Nat :=
  if 48 ≤ c.toNat ∧ c.toNat ≤ 57 then some (c.toNat - 48)
  else if 97 ≤ c.toNat ∧ c.toNat ≤ 102 then some (c.toNat - 87)
  else if 65 ≤ c.toNat ∧ c.toNat ≤ 70 then some (c.toNat - 55)
  else none

/-- Model of `hex::decode` of the `hex` crate dependency: fails (`none`) on an odd
length or any non-hex character, otherwise pairs of digits become bytes. -/
def hexDecode : List Char → Option (List Nat)
  | [] => some []
  | [_] => none
  | c1 :: c2 :: rest =>
    match hexDigitVal c1, hexDigitVal c2, hexDecode rest with
    | some hi, some lo, some bs => some ((16 * hi + lo) :: bs)
    | _, _, _ => none

/-- Errors of `Txid`'s `Deserialize` impl (src/src/lib.rs lines 87-101); both
are serde custom errors in Rust: `invalidFormat` wraps the `hex::decode`
failure (the spec's `InvalidFormat`), `invalidLength` is the explicit
`"Invalid Txid length"` error. -/
inductive TxidDeError where
  | invalidFormat
  | invalidLength
deriving DecidableEq, Repr

/-- Model of `Txid`'s `Serialize` impl (src/src/lib.rs lines 78-85): the lowercase
hex string of the 32 raw bytes. -/
def Txid.serialize (t : Txid) : List Char := hexEncode t.bytes

/-- Model of `Txid`'s `Deserialize` impl (src/src/lib.rs lines 87-101): hex-decode
the string, then require exactly 32 bytes. -/
def Txid.deserialize (s : List Char) : Except TxidDeError Txid :=
  match hexDecode s with
  | none => .error .invalidFormat
  | some bytes =>
    if bytes.length ≠ 32 then .error .invalidLength
    else .ok ⟨bytes⟩

/-- Model of `struct OutPoint { txid: Txid, vout: u32 }`. -/
structure OutPoint where
  txid : Txid
  vout : Nat
deriving DecidableEq, Repr

/-- Model of `OutPoint::new`. -/
def OutPoint.new (txid : List Nat) (vout : Nat) : OutPoint := ⟨⟨txid⟩, vout⟩

/-- Field invariants of `OutPoint` (32-byte txid, `u32` vout). -/
def OutPoint.Valid (p : OutPoint) : Prop := p.txid.Valid ∧ p.vout < 2 ^ 32

/-- Model of `OutPoint::to_bytes` (src/src/lib.rs lines 117-121): txid bytes then
4-byte little-endian vout. -/
def OutPoint.to_bytes (p : OutPoint) : List Nat :=
  p.txid.bytes ++ toLE 4 p.vout

/-- Model of `OutPoint::from_bytes` (src/src/lib.rs lines 123-131): requires 36
bytes; `bytes[..32]` is `take 32`, `bytes[32..36]` is `(drop 32).take 4`. -/
def OutPoint.from_bytes (bytes : List Nat) : RResult (OutPoint × Nat) :=
  if bytes.length < 36 then .err .InsufficientBytes
  else .ok (OutPoint.new (bytes.take 32) (fromLE ((bytes.drop 32).take 4)), 36)

/-- Model of `struct Script { bytes: Vec<u8> }`. -/
structure Script where
  bytes : List Nat
deriving DecidableEq, Repr

/-- Model of `Script::new`. -/
def Script.new (bytes : List Nat) : Script := ⟨bytes⟩

/-- Byte-vector invariants of a `Script`: byte range, and the Rust `Vec`
length bound (`isize::MAX < 2 ^ 63`). -/
def Script.Valid (s : Script) : Prop :=
  (∀ b ∈ s.bytes, b < 256) ∧ s.bytes.length < 2 ^ 63

/-- Model of `Script::to_bytes` (src/src/lib.rs lines 144-148): VarInt length prefix
then the raw bytes (`len() as usize -> u64` is value-preserving on the
64-bit target). -/
def Script.to_bytes (s : Script) : List Nat :=
  CompactSize.to_bytes (CompactSize.new s.bytes.length) ++ s.bytes

/-- Model of `Script::from_bytes` (src/src/lib.rs lines 150-158). The Rust line
`let total_len = size_len + size.value as usize` wraps modulo `2 ^ 64` in
release builds; in debug builds an overflowing addition panics outright.
When the addition wraps, `total_len < size_len ≤ bytes.len()`, so the
`bytes.len() < total_len` guard passes and the slice
`bytes[size_len..total_len]` (start after end) panics in release too: both
build modes panic exactly when the addition overflows, which the
`total_len < size_len` branch below records. The slice is otherwise
`(drop size_len).take (total_len - size_len)`. -/
def Script.from_bytes (bytes : List Nat) : RResult (Script × Nat) :=
  match CompactSize.from_bytes bytes with
  | .err e => .err e
  | .panicked => .panicked
  | .ok (size, size_len) =>
    let total_len := (size_len + size.value) % 2 ^ 64
    if bytes.length < total_len then .err .InsufficientBytes
    else if total_len < size_len then .panicked
    else .ok (Script.new ((bytes.drop size_len).take (total_len - size_len)), total_len)

/-- Model of `struct TransactionInput`. -/
structure TransactionInput where
  previous_output : OutPoint
  script_sig : Script
  sequence : Nat
deriving DecidableEq, Repr

/-- Model of `TransactionInput::new`. -/
def TransactionInput.new (previous_output : OutPoint) (script_sig : Script)
    (sequence : Nat) : TransactionInput :=
  ⟨previous_output, script_sig, sequence⟩

/-- Field invariants of a `TransactionInput` (`u32` sequence). -/
def TransactionInput.Valid (i : TransactionInput) : Prop :=
  i.previous_output.Valid ∧ i.script_sig.Valid ∧ i.sequence < 2 ^ 32

/-- Model of `TransactionInput::to_bytes` (src/src/lib.rs lines 184-189). -/
def TransactionInput.to_bytes (i : TransactionInput) : List Nat :=
  i.previous_output.to_bytes ++ i.script_sig.to_bytes ++ toLE 4 i.sequence

/-- Model of `TransactionInput::from_bytes` (src/src/lib.rs lines 191-203):
OutPoint, then Script from `bytes[offset1..]` (`drop offset1`, in bounds
because OutPoint consumed 36 ≤ `bytes.len()`), then a guarded 4-byte
sequence read. `offset1 + offset2 + 4` cannot overflow `usize` for a real
buffer: `offset2 ≤ bytes.len() - 36 ≤ isize::MAX`. -/
def TransactionInput.from_bytes (bytes : List Nat) : RResult (TransactionInput × Nat) :=
  match OutPoint.from_bytes bytes with
  | .err e => .err e
  | .panicked => .panicked
  | .ok (prev_out, offset1) =>
    match Script.from_bytes (bytes.drop offset1) with
    | .err e => .err e
    | .panicked => .panicked
    | .ok (script, offset2) =>
      if bytes.length < offset1 + offset2 + 4 then .err .InsufficientBytes
      else
        .ok (TransactionInput.new prev_out script
              (fromLE ((bytes.drop (offset1 + offset2)).take 4)),
          offset1 + offset2 + 4)

/-- Model of `struct BitcoinTransaction`. -/
structure BitcoinTransaction where
  version : Nat
  inputs : List TransactionInput
  lock_time : Nat
deriving DecidableEq, Repr

/-- Model of `BitcoinTransaction::new`. -/
def BitcoinTransaction.new (version : Nat) (inputs : List TransactionInput)
    (lock_time : Nat) : BitcoinTransaction :=
  ⟨version, inputs, lock_time⟩

/-- Field invariants of a `BitcoinTransaction` (`u32` version and lock
time, `Vec` length bound, valid inputs). -/
def BitcoinTransaction.Valid (tx : BitcoinTransaction) : Prop :=
  tx.version < 2 ^ 32 ∧ tx.lock_time < 2 ^ 32 ∧
    tx.inputs.length < 2 ^ 63 ∧ ∀ i ∈ tx.inputs, i.Valid

/-- Model of `BitcoinTransaction::to_bytes` (src/src/lib.rs lines 222-230):
version, VarInt input count, each input's bytes, lock time. -/
def BitcoinTransaction.to_bytes (tx : BitcoinTransaction) : List Nat :=
  toLE 4 tx.version ++ CompactSize.to_bytes (CompactSize.new tx.inputs.length)
    ++ (tx.inputs.map TransactionInput.to_bytes).flatten ++ toLE 4 tx.lock_time

/-- Model of the `for _ in 0..size.value` loop of
`BitcoinTransaction::from_bytes` (src/src/lib.rs lines 242-246): decode
`count` inputs from `bytes[offset..]` onward, accumulating the offset. The
loop exits at the first sub-decoder failure, so no partial input list
escapes. `offset` stays ≤ `bytes.len()` throughout (each `consumed` is at
most the remaining length), so `&bytes[offset..]` is in bounds. -/
def decodeInputs (bytes : List Nat) : Nat → Nat → RResult (List TransactionInput × Nat)
  | 0, offset => .ok ([], offset)
  | count + 1, offset =>
    match TransactionInput.from_bytes (bytes.drop offset) with
    | .err e => .err e
    | .panicked => .panicked
    | .ok (input, consumed) =>
      match decodeInputs bytes count (offset + consumed) with
      | .err e => .err e
      | .panicked => .panicked
      | .ok (inputs, final) => .ok (input :: inputs, final)

/-- Model of `BitcoinTransaction::from_bytes` (src/src/lib.rs lines
232-256): 4-byte version (guarded), VarInt input count from `bytes[4..]`,
the input loop, then a guarded 4-byte lock time at the final offset. -/
def BitcoinTransaction.from_bytes (bytes : List Nat) : RResult (BitcoinTransaction × Nat) :=
  if bytes.length < 4 then .err .InsufficientBytes
  else
    match CompactSize.from_bytes (bytes.drop 4) with
    | .err e => .err e
    | .panicked => .panicked
    | .ok (size, offset1) =>
      match decodeInputs bytes size.value (4 + offset1) with
      | .err e => .err e
      | .panicked => .panicked
      | .ok (inputs, offset) =>
        if bytes.length < offset + 4 then .err .InsufficientBytes
        else
          .ok (BitcoinTransaction.new (fromLE (bytes.take 4)) inputs
                (fromLE ((bytes.drop offset).take 4)),
            offset + 4)

theorem take_append_front {α : Type} (a b : List α) (n : Nat) (h : a.length = n) :
    (a ++ b).take n = a := by
  subst h; exact List.take_left a b

theorem drop_append_front {α : Type} (a b : List α) (n : Nat) (h : a.length = n) :
    (a ++ b).drop n = b := by
  subst h; exact List.drop_left a b

/-- Decoding an encoded CompactSize, with any trailing bytes, recovers the
value and consumes exactly the encoding. -/
theorem compactSize_decode_encode (v : Nat) (hv : v < 2 ^ 64) (e : List Nat) :
    CompactSize.from_bytes (CompactSize.to_bytes ⟨v⟩ ++ e) =
      .ok (⟨v⟩, (CompactSize.to_bytes ⟨v⟩).length) := by
  have h2 : (toLE 2 v).length = 2 := toLE_length 2 v
  have h4 : (toLE 4 v).length = 4 := toLE_length 4 v
  have h8 : (toLE 8 v).length = 8 := toLE_length 8 v
  by_cases hc1 : v ≤ 0xFC
  · simp [CompactSize.to_bytes, hc1, CompactSize.from_bytes, CompactSize.new]
  · by_cases hc2 : v ≤ 0xFFFF
    · simp only [CompactSize.to_bytes, hc1, hc2, if_false, if_true, List.cons_append,
        CompactSize.from_bytes, CompactSize.new]
      split
      · rename_i hle
        exact absurd hle (by decide)
      split
      · rename_i hlt
        simp only [List.length_cons, List.length_append, h2] at hlt
        omega
      · rw [take_append_front _ _ 2 h2, fromLE_toLE 2 v (by norm_num; omega)]
        simp [h2]
    · by_cases hc3 : v ≤ 0xFFFFFFFF
      · simp only [CompactSize.to_bytes, hc1, hc2, hc3, if_false, if_true,
          List.cons_append, CompactSize.from_bytes, CompactSize.new]
        split
        · rename_i hle
          exact absurd hle (by decide)
        split
        · rename_i heq
          exact absurd heq (by decide)
        split
        · rename_i hlt
          simp only [List.length_cons, List.length_append, h4] at hlt
          omega
        · rw [take_append_front _ _ 4 h4, fromLE_toLE 4 v (by norm_num; omega)]
          simp [h4]
      · simp only [CompactSize.to_bytes, hc1, hc2, hc3, if_false,
          List.cons_append, CompactSize.from_bytes, CompactSize.new]
        split
        · rename_i hle
          exact absurd hle (by decide)
        split
        · rename_i heq
          exact absurd heq (by decide)
        split
        · rename_i heq'
          exact absurd heq' (by decide)
        split
        · rename_i hlt
          simp only [List.length_cons, List.length_append, h8] at hlt
          omega
        · rw [take_append_front _ _ 8 h8, fromLE_toLE 8 v (by norm_num at hv ⊢; omega)]
          simp [h8]

/-- A successful CompactSize decode consumes at most the buffer and is
unchanged by appending trailing bytes. -/
theorem compactSize_stable (b : List Nat) (v : CompactSize) (n : Nat)
    (h : CompactSize.from_bytes b = .ok (v, n)) :
    n ≤ b.length ∧ ∀ e, CompactSize.from_bytes (b ++ e) = .ok (v, n) := by
  match b with
  | [] => simp [CompactSize.from_bytes] at h
  | tag :: rest =>
    simp only [CompactSize.from_bytes] at h
    by_cases hc1 : tag ≤ 0xFC
    · rw [if_pos hc1] at h
      simp only [RResult.ok.injEq, Prod.mk.injEq] at h
      refine ⟨by rw [← h.2]; simp, fun e => ?_⟩
      simp only [List.cons_append, CompactSize.from_bytes]
      rw [if_pos hc1, h.1, h.2]
    · rw [if_neg hc1] at h
      by_cases hd : tag = 0xFD
      · rw [if_pos hd] at h
        by_cases hlen : (tag :: rest).length < 3
        · rw [if_pos hlen] at h; simp at h
        · rw [if_neg hlen] at h
          simp only [RResult.ok.injEq, Prod.mk.injEq] at h
          simp only [List.length_cons, Nat.not_lt] at hlen
          refine ⟨by simp only [List.length_cons]; omega, fun e => ?_⟩
          have hlen2 : ¬ ((tag :: (rest ++ e)).length < 3) := by
            simp only [List.length_cons, List.length_append]; omega
          simp only [List.cons_append, CompactSize.from_bytes]
          rw [if_neg hc1, if_pos hd, if_neg hlen2,
            List.take_append_of_le_length (by omega), h.1, h.2]
      · rw [if_neg hd] at h
        by_cases he : tag = 0xFE
        · rw [if_pos he] at h
          by_cases hlen : (tag :: rest).length < 5
          · rw [if_pos hlen] at h; simp at h
          · rw [if_neg hlen] at h
            simp only [RResult.ok.injEq, Prod.mk.injEq] at h
            simp only [List.length_cons, Nat.not_lt] at hlen
            refine ⟨by simp only [List.length_cons]; omega, fun e => ?_⟩
            have hlen2 : ¬ ((tag :: (rest ++ e)).length < 5) := by
              simp only [List.length_cons, List.length_append]; omega
            simp only [List.cons_append, CompactSize.from_bytes]
            rw [if_neg hc1, if_neg hd, if_pos he, if_neg hlen2,
              List.take_append_of_le_length (by omega), h.1, h.2]
        · rw [if_neg he] at h
          by_cases hlen : (tag :: rest).length < 9
          · rw [if_pos hlen] at h; simp at h
          · rw [if_neg hlen] at h
            simp only [RResult.ok.injEq, Prod.mk.injEq] at h
            simp only [List.length_cons, Nat.not_lt] at hlen
            refine ⟨by simp only [List.length_cons]; omega, fun e => ?_⟩
            have hlen2 : ¬ ((tag :: (rest ++ e)).length < 9) := by
              simp only [List.length_cons, List.length_append]; omega
            simp only [List.cons_append, CompactSize.from_bytes]
            rw [if_neg hc1, if_neg hd, if_neg he, if_neg hlen2,
              List.take_append_of_le_length (by omega), h.1, h.2]

/-- A valid OutPoint encodes to exactly 36 bytes. -/
theorem outPoint_to_bytes_length (p : OutPoint) (hp : p.Valid) :
    p.to_bytes.length = 36 := by
  simp [OutPoint.to_bytes, toLE_length, hp.1.1]

/-- Decoding an encoded OutPoint, with any trailing bytes, recovers the
value and consumes 36 bytes. -/
theorem outPoint_decode_encode (p : OutPoint) (hp : p.Valid) (e : List Nat) :
    OutPoint.from_bytes (p.to_bytes ++ e) = .ok (p, 36) := by
  obtain ⟨⟨hlen, _⟩, hvout⟩ := hp
  have h36 : ¬ ((p.txid.bytes ++ (toLE 4 p.vout ++ e)).length < 36) := by
    simp only [List.length_append, toLE_length, hlen]; omega
  simp only [OutPoint.to_bytes, List.append_assoc, OutPoint.from_bytes]
  rw [if_neg h36, take_append_front _ _ 32 hlen, drop_append_front _ _ 32 hlen,
    take_append_front _ _ 4 (toLE_length 4 p.vout),
    fromLE_toLE 4 p.vout (by norm_num; omega)]
  rfl

/-- A successful OutPoint decode consumes at most the buffer and is
unchanged by appending trailing bytes. -/
theorem outPoint_stable (b : List Nat) (p : OutPoint) (n : Nat)
    (h : OutPoint.from_bytes b = .ok (p, n)) :
    n ≤ b.length ∧ ∀ e, OutPoint.from_bytes (b ++ e) = .ok (p, n) := by
  simp only [OutPoint.from_bytes] at h
  by_cases hlen : b.length < 36
  · rw [if_pos hlen] at h; simp at h
  · rw [if_neg hlen] at h
    simp only [RResult.ok.injEq, Prod.mk.injEq] at h
    push_neg at hlen
    refine ⟨by omega, fun e => ?_⟩
    have hlen2 : ¬ ((b ++ e).length < 36) := by
      simp only [List.length_append]; omega
    simp only [OutPoint.from_bytes]
    rw [if_neg hlen2, List.take_append_of_le_length (by omega),
      List.drop_append_of_le_length (by omega),
      List.take_append_of_le_length (by simp only [List.length_drop]; omega),
      h.1, h.2]

/-- CompactSize encodings are between 1 and 9 bytes. -/
theorem compactSize_len_le (v : Nat) :
    1 ≤ (CompactSize.to_bytes ⟨v⟩).length ∧ (CompactSize.to_bytes ⟨v⟩).length ≤ 9 := by
  unfold CompactSize.to_bytes
  split_ifs <;> simp [toLE_length]

/-- Decoding an encoded Script, with any trailing bytes, recovers the value
and consumes exactly the encoding. -/
theorem script_decode_encode (s : Script) (hs : s.Valid) (e : List Nat) :
    Script.from_bytes (s.to_bytes ++ e) = .ok (s, s.to_bytes.length) := by
  obtain ⟨hbytes, hL⟩ := hs
  have hL64 : s.bytes.length < 2 ^ 64 := by omega
  have hcs := compactSize_decode_encode s.bytes.length hL64 (s.bytes ++ e)
  have hn1le := (compactSize_len_le s.bytes.length).2
  simp only [Script.to_bytes, List.append_assoc, Script.from_bytes, CompactSize.new, hcs]
  have hmod : ((CompactSize.to_bytes ⟨s.bytes.length⟩).length + s.bytes.length) % 2 ^ 64
      = (CompactSize.to_bytes ⟨s.bytes.length⟩).length + s.bytes.length :=
    Nat.mod_eq_of_lt (by omega)
  rw [hmod]
  rw [if_neg (by simp only [List.length_append]; omega),
    if_neg (by omega),
    drop_append_front _ _ (CompactSize.to_bytes ⟨s.bytes.length⟩).length rfl,
    Nat.add_sub_cancel_left,
    take_append_front _ _ s.bytes.length rfl]
  simp [List.length_append, Script.new]

/-- A successful Script decode consumes at most the buffer and is unchanged
by appending trailing bytes. -/
theorem script_stable (b : List Nat) (v : Script) (n : Nat)
    (h : Script.from_bytes b = .ok (v, n)) :
    n ≤ b.length ∧ ∀ e, Script.from_bytes (b ++ e) = .ok (v, n) := by
  unfold Script.from_bytes at h
  cases hcs : CompactSize.from_bytes b with
  | err e' => rw [hcs] at h; simp at h
  | panicked => rw [hcs] at h; simp at h
  | ok val =>
    obtain ⟨size, size_len⟩ := val
    rw [hcs] at h
    obtain ⟨hle, hstab⟩ := compactSize_stable b size size_len hcs
    simp only at h
    by_cases h1 : b.length < (size_len + size.value) % 2 ^ 64
    · rw [if_pos h1] at h; simp at h
    · rw [if_neg h1] at h
      by_cases h2 : (size_len + size.value) % 2 ^ 64 < size_len
      · rw [if_pos h2] at h; simp at h
      · rw [if_neg h2] at h
        simp only [RResult.ok.injEq, Prod.mk.injEq] at h
        push_neg at h1 h2
        refine ⟨by omega, fun e => ?_⟩
        unfold Script.from_bytes
        rw [hstab e]
        simp only
        rw [if_neg (by simp only [List.length_append]; omega), if_neg (by omega),
          List.drop_append_of_le_length (by omega),
          List.take_append_of_le_length (by simp only [List.length_drop]; omega),
          h.1, h.2]

/-- Encoded length of a valid TransactionInput: 36-byte outpoint, script
encoding, 4-byte sequence. -/
theorem input_to_bytes_length (i : TransactionInput) (hi : i.Valid) :
    i.to_bytes.length = 36 + i.script_sig.to_bytes.length + 4 := by
  simp only [TransactionInput.to_bytes, List.length_append, toLE_length,
    outPoint_to_bytes_length i.previous_output hi.1]

/-- Decoding an encoded TransactionInput, with any trailing bytes, recovers
the value and consumes exactly the encoding. -/
theorem input_decode_encode (i : TransactionInput) (hi : i.Valid) (e : List Nat) :
    TransactionInput.from_bytes (i.to_bytes ++ e) = .ok (i, i.to_bytes.length) := by
  obtain ⟨hop, hscript, hseq⟩ := hi
  have hople := outPoint_to_bytes_length i.previous_output hop
  have h1 := outPoint_decode_encode i.previous_output hop
    (i.script_sig.to_bytes ++ (toLE 4 i.sequence ++ e))
  have h2 := script_decode_encode i.script_sig hscript (toLE 4 i.sequence ++ e)
  simp only [TransactionInput.from_bytes, TransactionInput.to_bytes, List.append_assoc, h1]
  simp only [drop_append_front _ _ 36 hople, h2]
  split
  · rename_i hlt
    exfalso
    simp only [List.length_append, toLE_length, hople] at hlt
    omega
  · rw [← List.append_assoc i.previous_output.to_bytes,
      drop_append_front (i.previous_output.to_bytes ++ i.script_sig.to_bytes) _
        (36 + i.script_sig.to_bytes.length)
        (by simp only [List.length_append, hople]),
      take_append_front _ _ 4 (toLE_length 4 i.sequence),
      fromLE_toLE 4 i.sequence (by norm_num; omega)]
    simp only [TransactionInput.new, RResult.ok.injEq, Prod.mk.injEq,
      List.length_append, toLE_length, hople]
    exact ⟨trivial, by omega⟩

/-- A successful TransactionInput decode consumes at most the buffer and is
unchanged by appending trailing bytes. -/
theorem input_stable (b : List Nat) (v : TransactionInput) (n : Nat)
    (h : TransactionInput.from_bytes b = .ok (v, n)) :
    n ≤ b.length ∧ ∀ e, TransactionInput.from_bytes (b ++ e) = .ok (v, n) := by
  unfold TransactionInput.from_bytes at h
  cases hop : OutPoint.from_bytes b with
  | err e' => rw [hop] at h; simp at h
  | panicked => rw [hop] at h; simp at h
  | ok val =>
    obtain ⟨prev, off1⟩ := val
    rw [hop] at h
    simp only at h
    obtain ⟨hople, hopstab⟩ := outPoint_stable b prev off1 hop
    cases hsc : Script.from_bytes (b.drop off1) with
    | err e' => rw [hsc] at h; simp at h
    | panicked => rw [hsc] at h; simp at h
    | ok val2 =>
      obtain ⟨script, off2⟩ := val2
      rw [hsc] at h
      simp only at h
      obtain ⟨hscle, hscstab⟩ := script_stable _ script off2 hsc
      simp only [List.length_drop] at hscle
      by_cases hlt : b.length < off1 + off2 + 4
      · rw [if_pos hlt] at h; simp at h
      · rw [if_neg hlt] at h
        simp only [RResult.ok.injEq, Prod.mk.injEq] at h
        push_neg at hlt
        refine ⟨by omega, fun e => ?_⟩
        have hd1 : (b ++ e).drop off1 = b.drop off1 ++ e :=
          List.drop_append_of_le_length (by omega)
        unfold TransactionInput.from_bytes
        simp only [hopstab e, hd1, hscstab e]
        rw [if_neg (by simp only [List.length_append]; omega),
          List.drop_append_of_le_length (by omega),
          List.take_append_of_le_length (by simp only [List.length_drop]; omega),
          h.1, h.2]

/-- When the buffer past `off` starts with the concatenated encodings of a
list of valid inputs, the decode loop recovers exactly that list and leaves
the offset just past them. -/
theorem decodeInputs_encode (L : List TransactionInput)
    (hL : ∀ i ∈ L, i.Valid) (b tail : List Nat) (off : Nat)
    (hoff : off ≤ b.length)
    (hdrop : b.drop off = (L.map TransactionInput.to_bytes).flatten ++ tail) :
    decodeInputs b L.length off =
      .ok (L, off + ((L.map TransactionInput.to_bytes).flatten).length) := by
  induction L generalizing off with
  | nil => simp [decodeInputs]
  | cons i L' ih =>
    simp only [List.map_cons, List.flatten_cons, List.append_assoc] at hdrop ⊢
    have hienc := input_decode_encode i (hL i (by simp)) ((L'.map TransactionInput.to_bytes).flatten ++ tail)
    have hlen1 : i.to_bytes.length ≤ (b.drop off).length := by
      rw [hdrop]; simp [List.length_append]
    simp only [List.length_drop] at hlen1
    have hdrop' : b.drop (off + i.to_bytes.length) = (L'.map TransactionInput.to_bytes).flatten ++ tail := by
      rw [← List.drop_drop, hdrop, drop_append_front _ _ i.to_bytes.length rfl]
    have hoff' : off + i.to_bytes.length ≤ b.length := by omega
    have hrec := ih (fun j hj => hL j (by simp [hj])) (off + i.to_bytes.length) hoff' hdrop'
    simp only [List.length_cons, decodeInputs, hdrop, hienc, hrec,
      RResult.ok.injEq, Prod.mk.injEq, List.length_append]
    exact ⟨trivial, by omega⟩

/-- A successful run of the input decode loop never passes the end of the
buffer and is unchanged by appending trailing bytes. -/
theorem decodeInputs_stable (count : Nat) (b : List Nat) (off : Nat)
    (ins : List TransactionInput) (final : Nat) (hoff : off ≤ b.length)
    (h : decodeInputs b count off = .ok (ins, final)) :
    final ≤ b.length ∧ ∀ e, decodeInputs (b ++ e) count off = .ok (ins, final) := by
  induction count generalizing off ins final with
  | zero =>
    simp only [decodeInputs, RResult.ok.injEq, Prod.mk.injEq] at h
    refine ⟨by omega, fun e => ?_⟩
    simp [decodeInputs, h.1, h.2]
  | succ count ih =>
    unfold decodeInputs at h
    cases hinp : TransactionInput.from_bytes (b.drop off) with
    | err e' => rw [hinp] at h; simp at h
    | panicked => rw [hinp] at h; simp at h
    | ok val =>
      obtain ⟨input, consumed⟩ := val
      rw [hinp] at h
      simp only at h
      obtain ⟨hcle, hcstab⟩ := input_stable _ input consumed hinp
      simp only [List.length_drop] at hcle
      cases hrest : decodeInputs b count (off + consumed) with
      | err e' => rw [hrest] at h; simp at h
      | panicked => rw [hrest] at h; simp at h
      | ok val2 =>
        obtain ⟨ins', final'⟩ := val2
        rw [hrest] at h
        simp only [RResult.ok.injEq, Prod.mk.injEq] at h
        obtain ⟨hfin, hstab'⟩ := ih (off + consumed) ins' final' (by omega) hrest
        refine ⟨by omega, fun e => ?_⟩
        have hd : (b ++ e).drop off = b.drop off ++ e :=
          List.drop_append_of_le_length (by omega)
        unfold decodeInputs
        rw [hd]
        simp only [hcstab e, hstab' e]
        simp [h.1, h.2]

/-- Decoding an encoded BitcoinTransaction, with any trailing bytes,
recovers the value and consumes exactly the encoding. -/
theorem tx_decode_encode (tx : BitcoinTransaction) (htx : tx.Valid) (e : List Nat) :
    BitcoinTransaction.from_bytes (tx.to_bytes ++ e) = .ok (tx, tx.to_bytes.length) := by
  obtain ⟨hver, hlock, hcount, hins⟩ := htx
  have hn1 := compactSize_len_le tx.inputs.length
  have hcs := compactSize_decode_encode tx.inputs.length (by omega)
    ((tx.inputs.map TransactionInput.to_bytes).flatten ++ (toLE 4 tx.lock_time ++ e))
  simp only [BitcoinTransaction.to_bytes, List.append_assoc, BitcoinTransaction.from_bytes,
    CompactSize.new]
  rw [if_neg (by simp only [List.length_append, toLE_length]; omega),
    drop_append_front (toLE 4 tx.version) _ 4 (toLE_length 4 tx.version)]
  simp only [hcs]
  have hoff : 4 + (CompactSize.to_bytes ⟨tx.inputs.length⟩).length ≤
      (toLE 4 tx.version ++ (CompactSize.to_bytes ⟨tx.inputs.length⟩ ++
        ((tx.inputs.map TransactionInput.to_bytes).flatten ++ (toLE 4 tx.lock_time ++ e)))).length := by
    simp only [List.length_append, toLE_length]; omega
  have hdrop : (toLE 4 tx.version ++ (CompactSize.to_bytes ⟨tx.inputs.length⟩ ++
      ((tx.inputs.map TransactionInput.to_bytes).flatten ++ (toLE 4 tx.lock_time ++ e)))).drop
        (4 + (CompactSize.to_bytes ⟨tx.inputs.length⟩).length) =
      (tx.inputs.map TransactionInput.to_bytes).flatten ++ (toLE 4 tx.lock_time ++ e) := by
    rw [← List.append_assoc (toLE 4 tx.version)]
    exact drop_append_front _ _ _ (by simp only [List.length_append, toLE_length])
  have hdec := decodeInputs_encode tx.inputs hins _ (toLE 4 tx.lock_time ++ e)
    (4 + (CompactSize.to_bytes ⟨tx.inputs.length⟩).length) hoff hdrop
  simp only [hdec]
  rw [if_neg (by simp only [List.length_append, toLE_length]; omega)]
  have hdl : (toLE 4 tx.version ++ (CompactSize.to_bytes ⟨tx.inputs.length⟩ ++
      ((tx.inputs.map TransactionInput.to_bytes).flatten ++ (toLE 4 tx.lock_time ++ e)))).drop
        (4 + (CompactSize.to_bytes ⟨tx.inputs.length⟩).length +
          ((tx.inputs.map TransactionInput.to_bytes).flatten).length) =
      toLE 4 tx.lock_time ++ e := by
    rw [← List.append_assoc (toLE 4 tx.version), ← List.append_assoc]
    exact drop_append_front _ _ _ (by simp only [List.length_append, toLE_length])
  rw [hdl, take_append_front _ _ 4 (toLE_length 4 tx.lock_time),
    fromLE_toLE 4 tx.lock_time (by norm_num; omega),
    take_append_front _ _ 4 (toLE_length 4 tx.version),
    fromLE_toLE 4 tx.version (by norm_num; omega)]
  simp only [BitcoinTransaction.new, RResult.ok.injEq, Prod.mk.injEq,
    List.length_append, toLE_length]
  exact ⟨trivial, by omega⟩

/-- A successful BitcoinTransaction decode consumes at most the buffer and
is unchanged by appending trailing bytes. -/
theorem tx_stable (b : List Nat) (v : BitcoinTransaction) (n : Nat)
    (h : BitcoinTransaction.from_bytes b = .ok (v, n)) :
    n ≤ b.length ∧ ∀ e, BitcoinTransaction.from_bytes (b ++ e) = .ok (v, n) := by
  unfold BitcoinTransaction.from_bytes at h
  by_cases h4 : b.length < 4
  · rw [if_pos h4] at h; simp at h
  · rw [if_neg h4] at h
    push_neg at h4
    cases hcs : CompactSize.from_bytes (b.drop 4) with
    | err e' => rw [hcs] at h; simp at h
    | panicked => rw [hcs] at h; simp at h
    | ok val =>
      obtain ⟨size, off1⟩ := val
      rw [hcs] at h
      simp only at h
      obtain ⟨hoff1, hcsstab⟩ := compactSize_stable _ size off1 hcs
      simp only [List.length_drop] at hoff1
      cases hdi : decodeInputs b size.value (4 + off1) with
      | err e' => rw [hdi] at h; simp at h
      | panicked => rw [hdi] at h; simp at h
      | ok val2 =>
        obtain ⟨inputs, offset⟩ := val2
        rw [hdi] at h
        simp only at h
        obtain ⟨hofffin, hdistab⟩ :=
          decodeInputs_stable size.value b (4 + off1) inputs offset (by omega) hdi
        by_cases hfin : b.length < offset + 4
        · rw [if_pos hfin] at h; simp at h
        · rw [if_neg hfin] at h
          simp only [RResult.ok.injEq, Prod.mk.injEq] at h
          push_neg at hfin
          refine ⟨by omega, fun e => ?_⟩
          have hd4 : (b ++ e).drop 4 = b.drop 4 ++ e :=
            List.drop_append_of_le_length (by omega)
          unfold BitcoinTransaction.from_bytes
          rw [if_neg (by simp only [List.length_append]; omega), hd4]
          simp only [hcsstab e, hdistab e]
          rw [if_neg (by simp only [List.length_append]; omega),
            List.take_append_of_le_length (by omega),
            List.drop_append_of_le_length (by omega),
            List.take_append_of_le_length (by simp only [List.length_drop]; omega),
            h.1, h.2]

theorem toLE_ne_nil (w v : Nat) (hw : 0 < w) : toLE w v ≠ [] := by
  intro hnil
  have := toLE_length w v
  rw [hnil] at this
  simp at this
  omega

/-- Truncating an encoded CompactSize by one byte yields InsufficientBytes. -/
theorem compactSize_truncated (v : Nat) (hv : v < 2 ^ 64) :
    CompactSize.from_bytes (CompactSize.to_bytes ⟨v⟩).dropLast = .err .InsufficientBytes := by
  by_cases hc1 : v ≤ 0xFC
  · simp [CompactSize.to_bytes, hc1, CompactSize.from_bytes]
  · by_cases hc2 : v ≤ 0xFFFF
    · simp only [CompactSize.to_bytes, hc1, hc2, if_false, if_true]
      rw [show ((0xFD : Nat) :: toLE 2 v) = [0xFD] ++ toLE 2 v from rfl,
        List.dropLast_append_of_ne_nil _ (toLE_ne_nil 2 v (by omega)),
        List.singleton_append]
      have hlen : ((0xFD : Nat) :: (toLE 2 v).dropLast).length < 3 := by
        simp only [List.length_cons, List.length_dropLast, toLE_length]
        omega
      simp only [CompactSize.from_bytes]
      rw [if_neg (by decide : ¬ (0xFD : Nat) ≤ 0xFC), if_pos True.intro, if_pos hlen]
    · by_cases hc3 : v ≤ 0xFFFFFFFF
      · simp only [CompactSize.to_bytes, hc1, hc2, hc3, if_false, if_true]
        rw [show ((0xFE : Nat) :: toLE 4 v) = [0xFE] ++ toLE 4 v from rfl,
          List.dropLast_append_of_ne_nil _ (toLE_ne_nil 4 v (by omega)),
          List.singleton_append]
        have hlen : ((0xFE : Nat) :: (toLE 4 v).dropLast).length < 5 := by
          simp only [List.length_cons, List.length_dropLast, toLE_length]
          omega
        simp only [CompactSize.from_bytes]
        rw [if_neg (by decide : ¬ (0xFE : Nat) ≤ 0xFC),
          if_neg (by decide : ¬ (0xFE : Nat) = 0xFD), if_pos True.intro, if_pos hlen]
      · simp only [CompactSize.to_bytes, hc1, hc2, hc3, if_false]
        rw [show ((0xFF : Nat) :: toLE 8 v) = [0xFF] ++ toLE 8 v from rfl,
          List.dropLast_append_of_ne_nil _ (toLE_ne_nil 8 v (by omega)),
          List.singleton_append]
        have hlen : ((0xFF : Nat) :: (toLE 8 v).dropLast).length < 9 := by
          simp only [List.length_cons, List.length_dropLast, toLE_length]
          omega
        simp only [CompactSize.from_bytes]
        rw [if_neg (by decide : ¬ (0xFF : Nat) ≤ 0xFC),
          if_neg (by decide : ¬ (0xFF : Nat) = 0xFD),
          if_neg (by decide : ¬ (0xFF : Nat) = 0xFE), if_pos hlen]

/-- Truncating an encoded OutPoint by one byte yields InsufficientBytes. -/
theorem outPoint_truncated (p : OutPoint) (hp : p.Valid) :
    OutPoint.from_bytes p.to_bytes.dropLast = .err .InsufficientBytes := by
  have h35 : p.to_bytes.dropLast.length < 36 := by
    simp only [List.length_dropLast, outPoint_to_bytes_length p hp]
    omega
  simp only [OutPoint.from_bytes]
  rw [if_pos h35]

/-- Truncating an encoded Script by one byte yields InsufficientBytes. -/
theorem script_truncated (s : Script) (hs : s.Valid) :
    Script.from_bytes s.to_bytes.dropLast = .err .InsufficientBytes := by
  obtain ⟨hbytes, hL⟩ := hs
  rcases hsb : s.bytes with _ | ⟨b0, bs⟩
  · simp only [Script.to_bytes, hsb, List.length_nil, List.append_nil]
    have h0 : CompactSize.to_bytes (CompactSize.new 0) = [0] := by decide
    rw [h0]
    simp [Script.from_bytes, CompactSize.from_bytes]
  · have hne : s.bytes ≠ [] := by rw [hsb]; simp
    have hL64 : s.bytes.length < 2 ^ 64 := by omega
    have hcs := compactSize_decode_encode s.bytes.length hL64 s.bytes.dropLast
    have hn1 := compactSize_len_le s.bytes.length
    have hblen : 1 ≤ s.bytes.length := by rw [hsb]; simp
    simp only [Script.to_bytes, CompactSize.new,
      List.dropLast_append_of_ne_nil _ hne, Script.from_bytes, hcs]
    have hmod : ((CompactSize.to_bytes ⟨s.bytes.length⟩).length + s.bytes.length) % 2 ^ 64
        = (CompactSize.to_bytes ⟨s.bytes.length⟩).length + s.bytes.length :=
      Nat.mod_eq_of_lt (by omega)
    rw [hmod]
    have hlt : (CompactSize.to_bytes ⟨s.bytes.length⟩ ++ s.bytes.dropLast).length <
        (CompactSize.to_bytes ⟨s.bytes.length⟩).length + s.bytes.length := by
      simp only [List.length_append, List.length_dropLast]
      omega
    rw [if_pos hlt]

/-- Truncating an encoded TransactionInput by one byte yields
InsufficientBytes. -/
theorem input_truncated (i : TransactionInput) (hi : i.Valid) :
    TransactionInput.from_bytes i.to_bytes.dropLast = .err .InsufficientBytes := by
  obtain ⟨hop, hscript, hseq⟩ := hi
  have hople := outPoint_to_bytes_length i.previous_output hop
  have hseqne : toLE 4 i.sequence ≠ [] := toLE_ne_nil 4 i.sequence (by omega)
  have hXne : i.script_sig.to_bytes ++ toLE 4 i.sequence ≠ [] :=
    fun hX => hseqne (List.append_eq_nil.mp hX).2
  have h1 := outPoint_decode_encode i.previous_output hop
    (i.script_sig.to_bytes ++ (toLE 4 i.sequence).dropLast)
  have h2 := script_decode_encode i.script_sig hscript (toLE 4 i.sequence).dropLast
  simp only [TransactionInput.to_bytes, List.append_assoc]
  rw [List.dropLast_append_of_ne_nil _ hXne, List.dropLast_append_of_ne_nil _ hseqne]
  simp only [TransactionInput.from_bytes, h1]
  simp only [drop_append_front _ _ 36 hople, h2]
  have hlt : (i.previous_output.to_bytes ++
      (i.script_sig.to_bytes ++ (toLE 4 i.sequence).dropLast)).length <
      36 + i.script_sig.to_bytes.length + 4 := by
    simp only [List.length_append, List.length_dropLast, toLE_length, hople]
    omega
  rw [if_pos hlt]

/-- Truncating an encoded BitcoinTransaction by one byte yields
InsufficientBytes. -/
theorem tx_truncated (tx : BitcoinTransaction) (htx : tx.Valid) :
    BitcoinTransaction.from_bytes tx.to_bytes.dropLast = .err .InsufficientBytes := by
  obtain ⟨hver, hlock, hcount, hins⟩ := htx
  have hn1 := compactSize_len_le tx.inputs.length
  have hlockne : toLE 4 tx.lock_time ≠ [] := toLE_ne_nil 4 tx.lock_time (by omega)
  have hX1ne : (tx.inputs.map TransactionInput.to_bytes).flatten ++ toLE 4 tx.lock_time ≠ [] :=
    fun hX => hlockne (List.append_eq_nil.mp hX).2
  have hX2ne : CompactSize.to_bytes (CompactSize.new tx.inputs.length) ++
      ((tx.inputs.map TransactionInput.to_bytes).flatten ++ toLE 4 tx.lock_time) ≠ [] :=
    fun hX => hX1ne (List.append_eq_nil.mp hX).2
  have hcs := compactSize_decode_encode tx.inputs.length (by omega)
    ((tx.inputs.map TransactionInput.to_bytes).flatten ++ (toLE 4 tx.lock_time).dropLast)
  simp only [BitcoinTransaction.to_bytes, List.append_assoc]
  rw [List.dropLast_append_of_ne_nil _ hX2ne]
  simp only [CompactSize.new]
  rw [List.dropLast_append_of_ne_nil _
    (fun hX => hlockne (List.append_eq_nil.mp hX).2 :
      (tx.inputs.map TransactionInput.to_bytes).flatten ++ toLE 4 tx.lock_time ≠ []),
    List.dropLast_append_of_ne_nil _ hlockne]
  simp only [BitcoinTransaction.from_bytes]
  rw [if_neg (by simp only [List.length_append, toLE_length]; omega),
    drop_append_front (toLE 4 tx.version) _ 4 (toLE_length 4 tx.version)]
  simp only [hcs]
  have hoff : 4 + (CompactSize.to_bytes ⟨tx.inputs.length⟩).length ≤
      (toLE 4 tx.version ++ (CompactSize.to_bytes ⟨tx.inputs.length⟩ ++
        ((tx.inputs.map TransactionInput.to_bytes).flatten ++
          (toLE 4 tx.lock_time).dropLast))).length := by
    simp only [List.length_append, toLE_length]; omega
  have hdrop : (toLE 4 tx.version ++ (CompactSize.to_bytes ⟨tx.inputs.length⟩ ++
      ((tx.inputs.map TransactionInput.to_bytes).flatten ++ (toLE 4 tx.lock_time).dropLast))).drop
        (4 + (CompactSize.to_bytes ⟨tx.inputs.length⟩).length) =
      (tx.inputs.map TransactionInput.to_bytes).flatten ++ (toLE 4 tx.lock_time).dropLast := by
    rw [← List.append_assoc (toLE 4 tx.version)]
    exact drop_append_front _ _ _ (by simp only [List.length_append, toLE_length])
  have hdec := decodeInputs_encode tx.inputs hins _ ((toLE 4 tx.lock_time).dropLast)
    (4 + (CompactSize.to_bytes ⟨tx.inputs.length⟩).length) hoff hdrop
  simp only [hdec]
  have hlt : (toLE 4 tx.version ++ (CompactSize.to_bytes ⟨tx.inputs.length⟩ ++
      ((tx.inputs.map TransactionInput.to_bytes).flatten ++ (toLE 4 tx.lock_time).dropLast))).length <
      4 + (CompactSize.to_bytes ⟨tx.inputs.length⟩).length +
        ((tx.inputs.map TransactionInput.to_bytes).flatten).length + 4 := by
    simp only [List.length_append, List.length_dropLast, toLE_length]
    omega
  rw [if_pos hlt]

theorem hexDigitVal_hexDigitOfNat : ∀ n, n < 16 → hexDigitVal (hexDigitOfNat n) = some n := by
  decide

/-- Hex-decoding a hex encoding gives back the bytes. -/
theorem hexDecode_hexEncode (bytes : List Nat) (hb : ∀ b ∈ bytes, b < 256) :
    hexDecode (hexEncode bytes) = some bytes := by
  induction bytes with
  | nil => rfl
  | cons b bs ih =>
    have hblt : b < 256 := hb b (by simp)
    have hhi : hexDigitVal (hexDigitOfNat (b / 16)) = some (b / 16) :=
      hexDigitVal_hexDigitOfNat _ (by omega)
    have hlo : hexDigitVal (hexDigitOfNat (b % 16)) = some (b % 16) :=
      hexDigitVal_hexDigitOfNat _ (by omega)
    have hrest := ih (fun x hx => hb x (by simp [hx]))
    simp only [hexEncode, hexDecode, hhi, hlo, hrest]
    congr 1
    simp [Nat.div_add_mod]

/-- C1: for every entity type (CompactSize, OutPoint, Script,
TransactionInput, BitcoinTransaction) and every valid value `x`, decoding
the encoding succeeds and returns exactly the original value together with
the full encoded length. -/
theorem claim_c1_roundtrip :
    (∀ c : CompactSize, c.Valid →
      CompactSize.from_bytes c.to_bytes = .ok (c, c.to_bytes.length)) ∧
    (∀ p : OutPoint, p.Valid →
      OutPoint.from_bytes p.to_bytes = .ok (p, p.to_bytes.length)) ∧
    (∀ s : Script, s.Valid →
      Script.from_bytes s.to_bytes = .ok (s, s.to_bytes.length)) ∧
    (∀ i : TransactionInput, i.Valid →
      TransactionInput.from_bytes i.to_bytes = .ok (i, i.to_bytes.length)) ∧
    (∀ tx : BitcoinTransaction, tx.Valid →
      BitcoinTransaction.from_bytes tx.to_bytes = .ok (tx, tx.to_bytes.length)) := by
  refine ⟨fun c hc => ?_, fun p hp => ?_, fun s hs => ?_, fun i hi => ?_, fun tx htx => ?_⟩
  · simpa using compactSize_decode_encode c.value hc []
  · simpa [outPoint_to_bytes_length p hp] using outPoint_decode_encode p hp []
  · simpa using script_decode_encode s hs []
  · simpa using input_decode_encode i hi []
  · simpa using tx_decode_encode tx htx []

/-- Witness for C1 at one concrete valid value of each entity type. -/
theorem claim_c1_roundtrip_witness :
    CompactSize.from_bytes (CompactSize.to_bytes ⟨300⟩) = .ok (⟨300⟩, 3) ∧
    OutPoint.from_bytes (OutPoint.to_bytes ⟨⟨List.replicate 32 7⟩, 5⟩) =
      .ok (⟨⟨List.replicate 32 7⟩, 5⟩, 36) ∧
    Script.from_bytes (Script.to_bytes ⟨[1, 2, 3]⟩) = .ok (⟨[1, 2, 3]⟩, 4) ∧
    TransactionInput.from_bytes
        (TransactionInput.to_bytes ⟨⟨⟨List.replicate 32 7⟩, 5⟩, ⟨[1, 2, 3]⟩, 9⟩) =
      .ok (⟨⟨⟨List.replicate 32 7⟩, 5⟩, ⟨[1, 2, 3]⟩, 9⟩, 44) ∧
    BitcoinTransaction.from_bytes
        (BitcoinTransaction.to_bytes ⟨1, [⟨⟨⟨List.replicate 32 7⟩, 5⟩, ⟨[1, 2, 3]⟩, 9⟩], 0⟩) =
      .ok (⟨1, [⟨⟨⟨List.replicate 32 7⟩, 5⟩, ⟨[1, 2, 3]⟩, 9⟩], 0⟩, 53) :=
  ⟨claim_c1_roundtrip.1 ⟨300⟩ (by simp only [CompactSize.Valid]; decide),
   claim_c1_roundtrip.2.1 ⟨⟨List.replicate 32 7⟩, 5⟩
     (by simp only [OutPoint.Valid, Txid.Valid]; decide),
   claim_c1_roundtrip.2.2.1 ⟨[1, 2, 3]⟩ (by simp only [Script.Valid]; decide),
   claim_c1_roundtrip.2.2.2.1 ⟨⟨⟨List.replicate 32 7⟩, 5⟩, ⟨[1, 2, 3]⟩, 9⟩
     (by simp only [TransactionInput.Valid, OutPoint.Valid, Txid.Valid, Script.Valid]; decide),
   claim_c1_roundtrip.2.2.2.2 ⟨1, [⟨⟨⟨List.replicate 32 7⟩, 5⟩, ⟨[1, 2, 3]⟩, 9⟩], 0⟩
     (by simp only [BitcoinTransaction.Valid, TransactionInput.Valid, OutPoint.Valid,
         Txid.Valid, Script.Valid]; decide)⟩

/-- C7: for every entity type and every valid value `x`, decoding
`to_bytes x` with its last byte removed returns InsufficientBytes — never a
successful decode of a different value and never a panic. -/
theorem claim_c7_truncation :
    (∀ c : CompactSize, c.Valid →
      CompactSize.from_bytes c.to_bytes.dropLast = .err .InsufficientBytes) ∧
    (∀ p : OutPoint, p.Valid →
      OutPoint.from_bytes p.to_bytes.dropLast = .err .InsufficientBytes) ∧
    (∀ s : Script, s.Valid →
      Script.from_bytes s.to_bytes.dropLast = .err .InsufficientBytes) ∧
    (∀ i : TransactionInput, i.Valid →
      TransactionInput.from_bytes i.to_bytes.dropLast = .err .InsufficientBytes) ∧
    (∀ tx : BitcoinTransaction, tx.Valid →
      BitcoinTransaction.from_bytes tx.to_bytes.dropLast = .err .InsufficientBytes) := by
  refine ⟨fun c hc => ?_, outPoint_truncated, script_truncated, input_truncated, tx_truncated⟩
  simpa using compactSize_truncated c.value hc

/-- Witness for C7 at one concrete valid value of each entity type. -/
theorem claim_c7_truncation_witness :
    CompactSize.from_bytes (CompactSize.to_bytes ⟨300⟩).dropLast = .err .InsufficientBytes ∧
    OutPoint.from_bytes (OutPoint.to_bytes ⟨⟨List.replicate 32 7⟩, 5⟩).dropLast =
      .err .InsufficientBytes ∧
    Script.from_bytes (Script.to_bytes ⟨[1, 2, 3]⟩).dropLast = .err .InsufficientBytes ∧
    TransactionInput.from_bytes
        (TransactionInput.to_bytes ⟨⟨⟨List.replicate 32 7⟩, 5⟩, ⟨[1, 2, 3]⟩, 9⟩).dropLast =
      .err .InsufficientBytes ∧
    BitcoinTransaction.from_bytes
        (BitcoinTransaction.to_bytes ⟨1, [], 77⟩).dropLast = .err .InsufficientBytes :=
  ⟨claim_c7_truncation.1 ⟨300⟩ (by simp only [CompactSize.Valid]; decide),
   claim_c7_truncation.2.1 ⟨⟨List.replicate 32 7⟩, 5⟩
     (by simp only [OutPoint.Valid, Txid.Valid]; decide),
   claim_c7_truncation.2.2.1 ⟨[1, 2, 3]⟩ (by simp only [Script.Valid]; decide),
   claim_c7_truncation.2.2.2.1 ⟨⟨⟨List.replicate 32 7⟩, 5⟩, ⟨[1, 2, 3]⟩, 9⟩
     (by simp only [TransactionInput.Valid, OutPoint.Valid, Txid.Valid, Script.Valid]; decide),
   claim_c7_truncation.2.2.2.2 ⟨1, [], 77⟩
     (by simp only [BitcoinTransaction.Valid]; norm_num)⟩

/-- C10: every decoder is prefix-stable — a successful decode consumes at
most the buffer, and appending trailing bytes changes neither the value nor
the consumed count. -/
theorem claim_c10_stability :
    (∀ b v n, CompactSize.from_bytes b = .ok (v, n) →
      n ≤ b.length ∧ ∀ e, CompactSize.from_bytes (b ++ e) = .ok (v, n)) ∧
    (∀ b v n, OutPoint.from_bytes b = .ok (v, n) →
      n ≤ b.length ∧ ∀ e, OutPoint.from_bytes (b ++ e) = .ok (v, n)) ∧
    (∀ b v n, Script.from_bytes b = .ok (v, n) →
      n ≤ b.length ∧ ∀ e, Script.from_bytes (b ++ e) = .ok (v, n)) ∧
    (∀ b v n, TransactionInput.from_bytes b = .ok (v, n) →
      n ≤ b.length ∧ ∀ e, TransactionInput.from_bytes (b ++ e) = .ok (v, n)) ∧
    (∀ b v n, BitcoinTransaction.from_bytes b = .ok (v, n) →
      n ≤ b.length ∧ ∀ e, BitcoinTransaction.from_bytes (b ++ e) = .ok (v, n)) :=
  ⟨compactSize_stable, outPoint_stable, script_stable, input_stable, tx_stable⟩

/-- Witness for C10: one concrete successful decode of each entity type,
extended with extra trailing bytes. -/
theorem claim_c10_stability_witness :
    CompactSize.from_bytes ([5] ++ [9]) = .ok (⟨5⟩, 1) ∧
    OutPoint.from_bytes (List.replicate 36 0 ++ [1]) =
      .ok (⟨⟨List.replicate 32 0⟩, 0⟩, 36) ∧
    Script.from_bytes ([2, 7, 8] ++ [9]) = .ok (⟨[7, 8]⟩, 3) ∧
    TransactionInput.from_bytes ((List.replicate 36 0 ++ [0] ++ List.replicate 4 0) ++ [3]) =
      .ok (⟨⟨⟨List.replicate 32 0⟩, 0⟩, ⟨[]⟩, 0⟩, 41) ∧
    BitcoinTransaction.from_bytes ([1, 0, 0, 0, 0, 0, 0, 0, 0] ++ [4]) =
      .ok (⟨1, [], 0⟩, 9) :=
  ⟨(claim_c10_stability.1 [5] ⟨5⟩ 1 (by decide)).2 [9],
   (claim_c10_stability.2.1 (List.replicate 36 0) ⟨⟨List.replicate 32 0⟩, 0⟩ 36 (by decide)).2 [1],
   (claim_c10_stability.2.2.1 [2, 7, 8] ⟨[7, 8]⟩ 3 (by decide)).2 [9],
   (claim_c10_stability.2.2.2.1 (List.replicate 36 0 ++ [0] ++ List.replicate 4 0)
     ⟨⟨⟨List.replicate 32 0⟩, 0⟩, ⟨[]⟩, 0⟩ 41 (by decide)).2 [3],
   (claim_c10_stability.2.2.2.2 [1, 0, 0, 0, 0, 0, 0, 0, 0] ⟨1, [], 0⟩ 9 (by decide)).2 [4]⟩

/-- C3: CompactSize::to_bytes selects tag and width purely by magnitude
(single byte up to 0xFC; 0xFD + 2 LE bytes; 0xFE + 4 LE bytes; 0xFF + 8 LE
bytes), and each boundary value produces the documented tag and bytes. -/
theorem claim_c3_varint_encode :
    (∀ v, v ≤ 0xFC → CompactSize.to_bytes ⟨v⟩ = [v]) ∧
    (∀ v, 0xFD ≤ v → v ≤ 0xFFFF → CompactSize.to_bytes ⟨v⟩ = [0xFD, v % 256, v / 256]) ∧
    (∀ v, 0x10000 ≤ v → v ≤ 0xFFFFFFFF → CompactSize.to_bytes ⟨v⟩ = 0xFE :: toLE 4 v) ∧
    (∀ v, 0x100000000 ≤ v → v < 2 ^ 64 → CompactSize.to_bytes ⟨v⟩ = 0xFF :: toLE 8 v) ∧
    CompactSize.to_bytes ⟨0⟩ = [0x00] ∧
    CompactSize.to_bytes ⟨252⟩ = [0xFC] ∧
    CompactSize.to_bytes ⟨253⟩ = [0xFD, 0xFD, 0x00] ∧
    CompactSize.to_bytes ⟨65535⟩ = [0xFD, 0xFF, 0xFF] ∧
    CompactSize.to_bytes ⟨65536⟩ = [0xFE, 0x00, 0x00, 0x01, 0x00] ∧
    CompactSize.to_bytes ⟨4294967295⟩ = [0xFE, 0xFF, 0xFF, 0xFF, 0xFF] ∧
    CompactSize.to_bytes ⟨4294967296⟩ = [0xFF, 0x00, 0x00, 0x00, 0x00, 0x01, 0x00, 0x00, 0x00] ∧
    CompactSize.to_bytes ⟨0xFFFFFFFFFFFFFFFF⟩ =
      [0xFF, 0xFF, 0xFF, 0xFF, 0xFF, 0xFF, 0xFF, 0xFF, 0xFF] := by
  refine ⟨fun v hv => ?_, fun v h1 h2 => ?_, fun v h1 h2 => ?_, fun v h1 h2 => ?_,
    by decide, by decide, by decide, by decide, by decide, by decide, by decide, by decide⟩
  · simp [CompactSize.to_bytes, hv]
  · have hd : v / 256 % 256 = v / 256 := Nat.mod_eq_of_lt (by omega)
    have hn1 : ¬ v ≤ 252 := by omega
    simp [CompactSize.to_bytes, hn1, h2, toLE, hd]
  · have hn1 : ¬ v ≤ 252 := by omega
    have hn2 : ¬ v ≤ 65535 := by omega
    simp [CompactSize.to_bytes, hn1, hn2, h2]
  · have hn1 : ¬ v ≤ 252 := by omega
    have hn2 : ¬ v ≤ 65535 := by omega
    have hn3 : ¬ v ≤ 4294967295 := by omega
    simp [CompactSize.to_bytes, hn1, hn2, hn3]

/-- Witness for C3 at one concrete value in each magnitude band. -/
theorem claim_c3_varint_encode_witness :
    CompactSize.to_bytes ⟨7⟩ = [7] ∧
    CompactSize.to_bytes ⟨300⟩ = [0xFD, 44, 1] ∧
    CompactSize.to_bytes ⟨100000⟩ = [0xFE, 160, 134, 1, 0] ∧
    CompactSize.to_bytes ⟨4294967297⟩ = [0xFF, 1, 0, 0, 0, 1, 0, 0, 0] :=
  ⟨claim_c3_varint_encode.1 7 (by decide),
   claim_c3_varint_encode.2.1 300 (by decide) (by decide),
   claim_c3_varint_encode.2.2.1 100000 (by decide) (by decide),
   claim_c3_varint_encode.2.2.2.1 4294967297 (by decide) (by norm_num)⟩

/-- C4: CompactSize::from_bytes reads the first byte as a tag — a tag up to
0xFC is the value itself with 1 byte consumed; tags 0xFD/0xFE/0xFF read
exactly 2/4/8 following little-endian bytes consuming 3/5/9 total, and fail
with InsufficientBytes exactly when fewer bytes follow than the tag
demands, including on the empty buffer. -/
theorem claim_c4_varint_decode :
    CompactSize.from_bytes [] = .err .InsufficientBytes ∧
    (∀ tag rest, tag ≤ 0xFC →
      CompactSize.from_bytes (tag :: rest) = .ok (⟨tag⟩, 1)) ∧
    (∀ rest : List Nat, CompactSize.from_bytes (0xFD :: rest) =
      if rest.length < 2 then .err .InsufficientBytes
      else .ok (⟨fromLE (rest.take 2)⟩, 3)) ∧
    (∀ rest : List Nat, CompactSize.from_bytes (0xFE :: rest) =
      if rest.length < 4 then .err .InsufficientBytes
      else .ok (⟨fromLE (rest.take 4)⟩, 5)) ∧
    (∀ rest : List Nat, CompactSize.from_bytes (0xFF :: rest) =
      if rest.length < 8 then .err .InsufficientBytes
      else .ok (⟨fromLE (rest.take 8)⟩, 9)) := by
  refine ⟨rfl, fun tag rest htag => ?_, fun rest => ?_, fun rest => ?_, fun rest => ?_⟩
  · simp [CompactSize.from_bytes, htag, CompactSize.new]
  · simp only [CompactSize.from_bytes, CompactSize.new, List.length_cons]
    rw [if_neg (by decide : ¬ (0xFD : Nat) ≤ 0xFC), if_pos True.intro]
    by_cases hlen : rest.length < 2
    · rw [if_pos (by omega), if_pos hlen]
    · rw [if_neg (by omega), if_neg hlen]
  · simp only [CompactSize.from_bytes, CompactSize.new, List.length_cons]
    rw [if_neg (by decide : ¬ (0xFE : Nat) ≤ 0xFC),
      if_neg (by decide : ¬ (0xFE : Nat) = 0xFD), if_pos True.intro]
    by_cases hlen : rest.length < 4
    · rw [if_pos (by omega), if_pos hlen]
    · rw [if_neg (by omega), if_neg hlen]
  · simp only [CompactSize.from_bytes, CompactSize.new, List.length_cons]
    rw [if_neg (by decide : ¬ (0xFF : Nat) ≤ 0xFC),
      if_neg (by decide : ¬ (0xFF : Nat) = 0xFD),
      if_neg (by decide : ¬ (0xFF : Nat) = 0xFE)]
    by_cases hlen : rest.length < 8
    · rw [if_pos (by omega), if_pos hlen]
    · rw [if_neg (by omega), if_neg hlen]

/-- Witness for C4 at concrete buffers, one per tag and outcome. -/
theorem claim_c4_varint_decode_witness :
    CompactSize.from_bytes [] = .err .InsufficientBytes ∧
    CompactSize.from_bytes [9, 1, 2] = .ok (⟨9⟩, 1) ∧
    CompactSize.from_bytes [0xFD, 0xFD, 0] = .ok (⟨253⟩, 3) ∧
    CompactSize.from_bytes [0xFD, 7] = .err .InsufficientBytes ∧
    CompactSize.from_bytes [0xFE, 0, 0, 1, 0] = .ok (⟨65536⟩, 5) ∧
    CompactSize.from_bytes [0xFE, 1, 2] = .err .InsufficientBytes ∧
    CompactSize.from_bytes [0xFF, 1, 0, 0, 0, 1, 0, 0, 0] = .ok (⟨4294967297⟩, 9) ∧
    CompactSize.from_bytes [0xFF, 1, 2, 3, 4, 5, 6, 7] = .err .InsufficientBytes :=
  ⟨claim_c4_varint_decode.1,
   claim_c4_varint_decode.2.1 9 [1, 2] (by decide),
   claim_c4_varint_decode.2.2.1 [0xFD, 0],
   claim_c4_varint_decode.2.2.1 [7],
   claim_c4_varint_decode.2.2.2.1 [0, 0, 1, 0],
   claim_c4_varint_decode.2.2.2.1 [1, 2],
   claim_c4_varint_decode.2.2.2.2 [1, 0, 0, 0, 1, 0, 0, 0],
   claim_c4_varint_decode.2.2.2.2 [1, 2, 3, 4, 5, 6, 7]⟩

/-- C5: BitcoinTransaction::from_bytes needs 4 version bytes up front, then
a VarInt input count, then exactly that many inputs with the offset
accumulated, then 4 lock-time bytes; a count of 0 yields an empty input
list; a buffer declaring 2 inputs but containing only 1 input's bytes fails
with InsufficientBytes and returns no partial list. -/
theorem claim_c5_tx_decode :
    (∀ b : List Nat, b.length < 4 →
      BitcoinTransaction.from_bytes b = .err .InsufficientBytes) ∧
    (∀ version lock e, version < 2 ^ 32 → lock < 2 ^ 32 →
      BitcoinTransaction.from_bytes (toLE 4 version ++ [0] ++ toLE 4 lock ++ e) =
        .ok (⟨version, [], lock⟩, 9)) ∧
    (∀ version lock (inputs : List TransactionInput),
      version < 2 ^ 32 → lock < 2 ^ 32 → inputs.length < 2 ^ 63 →
      (∀ i ∈ inputs, i.Valid) →
      BitcoinTransaction.from_bytes
          (toLE 4 version ++ CompactSize.to_bytes ⟨inputs.length⟩ ++
            (inputs.map TransactionInput.to_bytes).flatten ++ toLE 4 lock) =
        .ok (⟨version, inputs, lock⟩,
          (toLE 4 version ++ CompactSize.to_bytes ⟨inputs.length⟩ ++
            (inputs.map TransactionInput.to_bytes).flatten ++ toLE 4 lock).length)) ∧
    BitcoinTransaction.from_bytes
        ([1, 0, 0, 0] ++ [2] ++ (List.replicate 36 0 ++ [0] ++ [0, 0, 0, 0])) =
      .err .InsufficientBytes := by
  refine ⟨fun b hb => ?_, fun version lock e hv hl => ?_,
    fun version lock inputs hv hl hc hins => ?_, by decide⟩
  · simp only [BitcoinTransaction.from_bytes]
    rw [if_pos hb]
  · have h0 : CompactSize.to_bytes (CompactSize.new 0) = [0] := by decide
    have := tx_decode_encode ⟨version, [], lock⟩ ⟨hv, hl, by norm_num, by simp⟩ e
    simpa [BitcoinTransaction.to_bytes, h0, toLE_length] using this
  · have := tx_decode_encode ⟨version, inputs, lock⟩ ⟨hv, hl, hc, hins⟩ []
    simpa [BitcoinTransaction.to_bytes, CompactSize.new] using this

/-- Witness for C5 at concrete buffers. -/
theorem claim_c5_tx_decode_witness :
    BitcoinTransaction.from_bytes [1, 2] = .err .InsufficientBytes ∧
    BitcoinTransaction.from_bytes (toLE 4 1 ++ [0] ++ toLE 4 0 ++ []) =
      .ok (⟨1, [], 0⟩, 9) ∧
    BitcoinTransaction.from_bytes
        (toLE 4 2 ++ CompactSize.to_bytes ⟨([] : List TransactionInput).length⟩ ++
          (([] : List TransactionInput).map TransactionInput.to_bytes).flatten ++ toLE 4 3) =
      .ok (⟨2, [], 3⟩, 9) ∧
    BitcoinTransaction.from_bytes
        ([1, 0, 0, 0] ++ [2] ++ (List.replicate 36 0 ++ [0] ++ [0, 0, 0, 0])) =
      .err .InsufficientBytes :=
  ⟨claim_c5_tx_decode.1 [1, 2] (by decide),
   claim_c5_tx_decode.2.1 1 0 [] (by decide) (by decide),
   claim_c5_tx_decode.2.2.1 2 3 [] (by decide) (by decide) (by decide) (by simp),
   claim_c5_tx_decode.2.2.2⟩

/-- C2 is violated by the code: with a declared VarInt length close to
2^64 the addition `size_len + size.value as usize` in Script::from_bytes
overflows and the function panics (debug: overflow panic; release: wrapped
`total_len` makes the slice `bytes[size_len..total_len]` start after its
end) instead of returning an error; the panic propagates through
TransactionInput::from_bytes and BitcoinTransaction::from_bytes. -/
theorem claim_c2_decoder_panics :
    Script.from_bytes [0xFF, 0xFF, 0xFF, 0xFF, 0xFF, 0xFF, 0xFF, 0xFF, 0xFF] = .panicked ∧
    TransactionInput.from_bytes (List.replicate 36 0 ++ List.replicate 9 0xFF) = .panicked ∧
    BitcoinTransaction.from_bytes
        ([1, 0, 0, 0] ++ [1] ++ (List.replicate 36 0 ++ List.replicate 9 0xFF)) = .panicked :=
  ⟨by decide, by decide, by decide⟩

/-- C6 is violated by the code on the same overflow input: the VarInt
prefix of `[0xFF; 9]` decodes to length 2^64 - 1, the remaining buffer
(0 bytes) is shorter than that declared length, yet Script::from_bytes does
not return InsufficientBytes — it panics. -/
theorem claim_c6_script_overflow :
    CompactSize.from_bytes (List.replicate 9 0xFF) = .ok (⟨2 ^ 64 - 1⟩, 9) ∧
    (List.replicate 9 (0xFF : Nat)).length - 9 < 2 ^ 64 - 1 ∧
    Script.from_bytes (List.replicate 9 0xFF) ≠ .err .InsufficientBytes ∧
    Script.from_bytes (List.replicate 9 0xFF) = .panicked :=
  ⟨by decide, by decide, by decide, by decide⟩

/-- C9 counterexample: the version-1, zero-input, lock-time-0 transaction
does encode to the claimed nine bytes, so the encoding length is 9 and the
claimed "12 bytes long" is false. -/
theorem claim_c9_counterexample :
    BitcoinTransaction.to_bytes ⟨1, [], 0⟩ =
      [0x01, 0x00, 0x00, 0x00, 0x00, 0x00, 0x00, 0x00, 0x00] ∧
    (BitcoinTransaction.to_bytes ⟨1, [], 0⟩).length ≠ 12 :=
  ⟨by decide, by decide⟩

/-- C9 amended: a transaction with version 1, zero inputs and lock time 0
encodes to `01 00 00 00 | 00 | 00 00 00 00`, and this encoding is 9 bytes
long (4-byte version, 1-byte VarInt 0, 4-byte lock time). -/
theorem claim_c9_amended :
    BitcoinTransaction.to_bytes ⟨1, [], 0⟩ =
      [0x01, 0x00, 0x00, 0x00, 0x00, 0x00, 0x00, 0x00, 0x00] ∧
    (BitcoinTransaction.to_bytes ⟨1, [], 0⟩).length = 9 :=
  ⟨by decide, by decide⟩

/-- C8: the Txid hex interchange round-trips every 32-byte value; a hex
string decoding to a byte length other than 32 (such as 62 or 66 hex
characters) fails with the invalid-length error, and a non-hex string
fails with the invalid-format error. -/
theorem claim_c8_txid_hex :
    (∀ t : Txid, t.Valid → Txid.deserialize (Txid.serialize t) = .ok t) ∧
    (∀ s bs, hexDecode s = some bs → bs.length ≠ 32 →
      Txid.deserialize s = .error .invalidLength) ∧
    (∀ s, hexDecode s = none → Txid.deserialize s = .error .invalidFormat) ∧
    Txid.deserialize (List.replicate 62 'a') = .error .invalidLength ∧
    Txid.deserialize (List.replicate 66 '0') = .error .invalidLength ∧
    Txid.deserialize ('z' :: List.replicate 63 '0') = .error .invalidFormat := by
  refine ⟨fun t ht => ?_, fun s bs hdec hne => ?_, fun s hdec => ?_,
    by rfl, by rfl, by rfl⟩
  · obtain ⟨hlen, hb⟩ := ht
    simp [Txid.serialize, Txid.deserialize, hexDecode_hexEncode t.bytes hb, hlen]
  · simp [Txid.deserialize, hdec, hne]
  · simp [Txid.deserialize, hdec]

/-- Witness for C8 at a concrete 32-byte value, a 62-character hex string,
and a non-hex string. -/
theorem claim_c8_txid_hex_witness :
    Txid.deserialize (Txid.serialize ⟨List.replicate 32 0⟩) = .ok ⟨List.replicate 32 0⟩ ∧
    Txid.deserialize (List.replicate 62 'a') = .error .invalidLength ∧
    Txid.deserialize ('z' :: List.replicate 63 '0') = .error .invalidFormat :=
  ⟨claim_c8_txid_hex.1 ⟨List.replicate 32 0⟩ (by simp only [Txid.Valid]; decide),
   claim_c8_txid_hex.2.1 (List.replicate 62 'a') (List.replicate 31 170)
     (by decide) (by decide),
   claim_c8_txid_hex.2.2.1 ('z' :: List.replicate 63 '0') (by decide)⟩
